import Mathlib

/-!
Verification of the progressive video-frame synthesis pipeline of
`src/backend/nlp_service.py`: the reveal scheduler, the caption compositor,
image letterboxing, temporary-file lifecycle, the fetch retry loop and the
`clean_text` normaliser, embedded shallowly in Lean.

Python floats are modelled as exact rationals (`ℚ`), Python ints as `ℕ`/`ℤ`
with `int()` truncation rendered as `Nat.floor`/`Int.floor` on the
non-negative quantities where it occurs, and fallible steps as explicit
outcome oracles.
-/

namespace NewsManiac

/-! ## Python string primitives

`str.split()` (no separator), `str.strip()`, `str.replace` and
`' '.join`, as used by `clean_text` and the word-splitting in
`generate_video_from_summary`.  Whitespace is the ASCII whitespace set
(the service feeds ASCII-spaced model output through these helpers). -/

/-- The whitespace characters of Python `str.split()` / `str.strip()`
(ASCII subset). -/
def pySpace (c : Char) : Bool :=
  c = ' ' || c = '\t' || c = '\n' || c = '\r' || c = '\u000b' || c = '\u000c'

/-- Python `str.split()` with no separator on a character list: split on
runs of whitespace, dropping empty pieces. -/
def pySplit : List Char → List (List Char)
  | [] => []
  | c :: cs =>
    if pySpace c then pySplit cs
    else
      match cs, pySplit cs with
      | [], _ => [[c]]
      | d :: _, rest =>
        if pySpace d then [c] :: rest
        else
          match rest with
          | [] => [[c]]
          | w :: ws => (c :: w) :: ws

/-- Python `' '.join` on word lists. -/
def joinWords : List (List Char) → List Char
  | [] => []
  | [w] => w
  | w :: v :: ws => w ++ ' ' :: joinWords (v :: ws)

/-- Python `str.strip()`: drop leading and trailing whitespace. -/
def pyStrip (l : List Char) : List Char :=
  ((l.dropWhile pySpace).reverse.dropWhile pySpace).reverse

/-- `text.replace('\n', ' ')`. -/
def replaceNewlines (l : List Char) : List Char :=
  l.map fun c => if c = '\n' then ' ' else c

/-- `text.replace('\r', '')`. -/
def removeCarriageReturns (l : List Char) : List Char :=
  l.filter fun c => !(c == '\r')

/-- The core of `clean_text` on a non-empty string's characters:
`' '.join(text.replace('\n',' ').replace('\r','').strip().split())`. -/
def clean_text_core (l : List Char) : List Char :=
  joinWords (pySplit (pyStrip (removeCarriageReturns (replaceNewlines l))))

/-- `clean_text(text)` from the source, lines 99-107.  `None` is modelled
as `Option.none`; `if not text` is the falsiness test on `None`/empty. -/
def clean_text (t : Option String) : String :=
  match t with
  | none => ""
  | some s => if s = "" then "" else ⟨clean_text_core s.data⟩

/-- `summary.split()` (source line 338). -/
def summary_words (s : String) : List String :=
  (pySplit s.data).map fun w => ⟨w⟩

/-! ## The reveal scheduler

`generate_video_from_summary`, lines 337-363: word display times, the
per-frame visible-word count, and the schedule built by the frame loop.
The source fixes `fps = 30`; the spec's scheduler contract quantifies over
the frame rate, so `fps` is a parameter here. -/

/-- `word_display_times` (lines 345-349): `(audio_duration / num_words) * i`
for each word index `i`. -/
def word_display_times (duration : ℚ) (num_words : ℕ) : List ℚ :=
  (List.range num_words).map fun i : ℕ => duration / num_words * (i : ℚ)

/-- The inner loop of lines 356-361: walk the display times in order,
counting `j + 1` while `current_time >= display_time`, breaking at the
first display time that is still in the future. -/
def words_to_show_count (current_time : ℚ) : List ℚ → ℕ
  | [] => 0
  | d :: ds => if d ≤ current_time then words_to_show_count current_time ds + 1 else 0

/-- `total_frames = math.ceil(audio_duration * fps)` (line 341). -/
def total_frames (duration : ℚ) (fps : ℕ) : ℕ :=
  (Int.ceil (duration * fps)).toNat

/-- The visible word count computed for frame `i` (`current_time = i / fps`,
line 354, fed through the counting loop). -/
def frame_word_count (s : String) (duration : ℚ) (fps : ℕ) (i : ℕ) : ℕ :=
  words_to_show_count ((i : ℚ) / fps) (word_display_times duration (summary_words s).length)

/-- The reveal schedule of the frame loop (lines 353-363): one
`(frame_index, visible_word_count)` entry per rendered frame. -/
def reveal_schedule (s : String) (duration : ℚ) (fps : ℕ) : List (ℕ × ℕ) :=
  (List.range (total_frames duration fps)).map fun i => (i, frame_word_count s duration fps i)

/-! ### Scheduler lemmas -/

theorem words_to_show_count_le_length (t : ℚ) (ds : List ℚ) :
    words_to_show_count t ds ≤ ds.length := by
  induction ds with
  | nil => simp [words_to_show_count]
  | cons d ds ih =>
    simp only [words_to_show_count, List.length_cons]
    split <;> omega

theorem words_to_show_count_mono (t₁ t₂ : ℚ) (h : t₁ ≤ t₂) (ds : List ℚ) :
    words_to_show_count t₁ ds ≤ words_to_show_count t₂ ds := by
  induction ds with
  | nil => simp [words_to_show_count]
  | cons d ds ih =>
    simp only [words_to_show_count]
    by_cases hd : d ≤ t₁
    · rw [if_pos hd, if_pos (hd.trans h)]; omega
    · rw [if_neg hd]; omega

theorem words_to_show_count_eq_length (t : ℚ) (ds : List ℚ) (h : ∀ d ∈ ds, d ≤ t) :
    words_to_show_count t ds = ds.length := by
  induction ds with
  | nil => rfl
  | cons d ds ih =>
    simp only [words_to_show_count, List.length_cons]
    rw [if_pos (h d (List.mem_cons_self d ds)), ih fun x hx => h x (List.mem_cons_of_mem d hx)]

theorem length_reveal_schedule (s : String) (duration : ℚ) (fps : ℕ) :
    (reveal_schedule s duration fps).length = total_frames duration fps := by
  simp [reveal_schedule]

theorem getLast_reveal_schedule (s : String) (duration : ℚ) (fps : ℕ)
    (h : 1 ≤ total_frames duration fps) :
    (reveal_schedule s duration fps).getLast? =
      some (total_frames duration fps - 1,
        frame_word_count s duration fps (total_frames duration fps - 1)) := by
  rw [reveal_schedule, show List.range (total_frames duration fps) =
      List.range (total_frames duration fps - 1) ++ [total_frames duration fps - 1] by
    conv_lhs => rw [show total_frames duration fps = (total_frames duration fps - 1) + 1 by omega]
    rw [List.range_succ]]
  rw [List.map_append, List.map_cons, List.map_nil, List.getLast?_concat]

theorem one_le_total_frames (duration : ℚ) (fps : ℕ) (hd : 0 < duration) (hf : 0 < fps) :
    1 ≤ total_frames duration fps := by
  have hpos : (0 : ℚ) < duration * fps := by
    have : (0 : ℚ) < (fps : ℚ) := by exact_mod_cast hf
    exact mul_pos hd this
  have := Int.ceil_pos.mpr hpos
  unfold total_frames
  omega

theorem display_time_le_last_frame_time (duration : ℚ) (fps n k : ℕ)
    (hd : 0 < duration) (hf : 0 < fps) (hn : 1 ≤ n)
    (hcap : (n : ℚ) ≤ duration * fps) (hk : k < n) :
    duration / n * k ≤ ((total_frames duration fps - 1 : ℕ) : ℚ) / fps := by
  have hnq : (0 : ℚ) < n := by exact_mod_cast hn
  have hfq : (0 : ℚ) < fps := by exact_mod_cast hf
  have hN1 : 1 ≤ total_frames duration fps := one_le_total_frames duration fps hd hf
  have hNceil : duration * fps ≤ ((total_frames duration fps : ℕ) : ℚ) := by
    have h0 : (0 : ℤ) ≤ ⌈duration * fps⌉ := by
      have : (0 : ℚ) < duration * fps := mul_pos hd hfq
      exact le_of_lt (Int.ceil_pos.mpr this)
    have h1 : ((total_frames duration fps : ℕ) : ℚ) = ((⌈duration * fps⌉ : ℤ) : ℚ) := by
      unfold total_frames
      exact_mod_cast congrArg Int.cast (Int.toNat_of_nonneg h0)
    rw [h1]
    exact Int.le_ceil _
  have hcast : ((total_frames duration fps - 1 : ℕ) : ℚ) =
      ((total_frames duration fps : ℕ) : ℚ) - 1 := by
    push_cast [Nat.cast_sub hN1]
    ring
  have hkq : (k : ℚ) ≤ (n : ℚ) - 1 := by
    have : ((k : ℚ) + 1) ≤ (n : ℚ) := by exact_mod_cast hk
    linarith
  have hdivnonneg : (0 : ℚ) ≤ duration / n := le_of_lt (div_pos hd hnq)
  have h1 : duration / n * k ≤ duration / n * ((n : ℚ) - 1) :=
    mul_le_mul_of_nonneg_left hkq hdivnonneg
  have h2 : duration / n * ((n : ℚ) - 1) = duration - duration / n := by
    field_simp
    ring
  have h3 : (1 : ℚ) / fps ≤ duration / n := by
    rw [div_le_div_iff₀ hfq hnq]
    linarith
  have h4 : duration ≤ ((total_frames duration fps : ℕ) : ℚ) / fps := by
    rw [le_div_iff₀ hfq]
    exact hNceil
  have h5 : (((total_frames duration fps : ℕ) : ℚ) - 1) / fps =
      ((total_frames duration fps : ℕ) : ℚ) / fps - 1 / fps := by ring
  rw [hcast, h5]
  linarith

/-! ### Claims C1, C2, C3 -/

section SchedulerClaims

attribute [local semireducible] Rat.mul Rat.inv Rat.add Rat.sub

/-- C1, counterexample: with the four-word summary, duration 1/10 s and
fps 2 (all satisfying the claim's hypotheses: positive duration, positive
fps, at least one word), the schedule has a single entry whose word count
is 1, not the total word count 4. -/
theorem C1_counterexample :
    (0 : ℚ) < 1 / 10 ∧ (0 : ℕ) < 2 ∧
    (summary_words "word1 word2 word3 word4").length = 4 ∧
    (reveal_schedule "word1 word2 word3 word4" (1 / 10) 2).getLast? = some (0, 1) ∧
    (1 : ℕ) ≠ 4 := by
  refine ⟨by norm_num, by norm_num, by decide, by decide, by decide⟩

/-- C1, amended: for positive duration and fps and a summary with at least
one word, the schedule has exactly `⌈duration * fps⌉` entries; provided
additionally that the word count does not exceed `duration * fps` (at
least one frame per word), the last entry's word count equals the total
word count. -/
theorem C1_theorem (s : String) (duration : ℚ) (fps : ℕ)
    (hd : 0 < duration) (hf : 0 < fps) (hw : 1 ≤ (summary_words s).length)
    (hcap : ((summary_words s).length : ℚ) ≤ duration * fps) :
    (reveal_schedule s duration fps).length = (⌈duration * (fps : ℚ)⌉).toNat ∧
    (reveal_schedule s duration fps).getLast? =
      some ((⌈duration * (fps : ℚ)⌉).toNat - 1, (summary_words s).length) := by
  have hN1 : 1 ≤ total_frames duration fps := one_le_total_frames duration fps hd hf
  have hlast := getLast_reveal_schedule s duration fps hN1
  have hfull : frame_word_count s duration fps (total_frames duration fps - 1) =
      (summary_words s).length := by
    unfold frame_word_count
    have hall : ∀ d ∈ word_display_times duration (summary_words s).length,
        d ≤ ((total_frames duration fps - 1 : ℕ) : ℚ) / fps := by
      intro d hd'
      simp only [word_display_times, List.mem_map, List.mem_range] at hd'
      obtain ⟨k, hk, rfl⟩ := hd'
      exact display_time_le_last_frame_time duration fps (summary_words s).length k
        hd hf hw hcap hk
    rw [words_to_show_count_eq_length _ _ hall]
    unfold word_display_times
    rw [List.length_map, List.length_range]
  refine ⟨length_reveal_schedule s duration fps, ?_⟩
  rw [hlast, hfull]
  rfl

/-- C1, witness: the amended claim evaluated on the four-word summary with
duration 4 s and fps 2. -/
theorem C1_witness :
    (reveal_schedule "word1 word2 word3 word4" 4 2).length = (⌈(4 : ℚ) * ((2 : ℕ) : ℚ)⌉).toNat ∧
    (reveal_schedule "word1 word2 word3 word4" 4 2).getLast? =
      some ((⌈(4 : ℚ) * ((2 : ℕ) : ℚ)⌉).toNat - 1,
        (summary_words "word1 word2 word3 word4").length) :=
  C1_theorem "word1 word2 word3 word4" 4 2 (by norm_num) (by norm_num) (by decide)
    (by
      have h : (summary_words "word1 word2 word3 word4").length = 4 := by decide
      rw [h]
      norm_num)

/-- C2: the visible word count of the reveal schedule is monotonically
non-decreasing in the frame index: for indices `i ≤ j` within the
schedule, the word count at entry `i` is at most the word count at
entry `j`. -/
theorem C2_theorem (s : String) (duration : ℚ) (fps : ℕ) (i j : ℕ)
    (hij : i ≤ j) (hj : j < (reveal_schedule s duration fps).length) :
    ((reveal_schedule s duration fps).get ⟨i, lt_of_le_of_lt hij hj⟩).2 ≤
      ((reveal_schedule s duration fps).get ⟨j, hj⟩).2 := by
  simp only [reveal_schedule, List.get_eq_getElem, List.getElem_map, List.getElem_range]
  unfold frame_word_count
  apply words_to_show_count_mono
  rcases Nat.eq_zero_or_pos fps with h0 | hpos
  · simp [h0]
  · gcongr

/-- C2, witness: monotonicity evaluated on the concrete schedule of the
four-word summary at duration 4 s and fps 2, entries 1 and 5. -/
theorem C2_witness :
    ((reveal_schedule "word1 word2 word3 word4" 4 2).get
        ⟨1, lt_of_le_of_lt (show (1 : ℕ) ≤ 5 by norm_num)
          (show (5 : ℕ) < (reveal_schedule "word1 word2 word3 word4" 4 2).length by decide)⟩).2 ≤
      ((reveal_schedule "word1 word2 word3 word4" 4 2).get
        ⟨5, show (5 : ℕ) < (reveal_schedule "word1 word2 word3 word4" 4 2).length by decide⟩).2 :=
  C2_theorem "word1 word2 word3 word4" 4 2 1 5 (by norm_num) (by decide)

/-- C3: on the summary "word1 word2 word3 word4" with duration 4.0 s and
fps 2, the schedule has 8 entries, the word display times are
[0, 1, 2, 3], and the visible word counts are 1 at frame 0, 2 at frame 2,
3 at frame 4, 4 at frame 6 and still 4 at frame 7 (frames 1, 3, 5 repeat
the previous count). -/
theorem C3_theorem :
    (reveal_schedule "word1 word2 word3 word4" 4 2).length = 8 ∧
    word_display_times 4 (summary_words "word1 word2 word3 word4").length = [0, 1, 2, 3] ∧
    reveal_schedule "word1 word2 word3 word4" 4 2 =
      [(0, 1), (1, 1), (2, 2), (3, 2), (4, 3), (5, 3), (6, 4), (7, 4)] := by
  refine ⟨by decide, by decide, by decide⟩

end SchedulerClaims

/-! ## `clean_text` properties (C10)

The words produced by `pySplit` are non-empty and whitespace-free, and
`' '.join` of such words is a fixed point of the whole `clean_text`
pipeline. -/

/-- Two consecutive spaces somewhere in the character list. -/
def hasDoubleSpace : List Char → Bool
  | c :: d :: rest => (c == ' ' && d == ' ') || hasDoubleSpace (d :: rest)
  | _ => false

/-- Every word is non-empty and free of whitespace characters. -/
def goodWords (ws : List (List Char)) : Prop :=
  ∀ w ∈ ws, w ≠ [] ∧ ∀ c ∈ w, pySpace c = false

theorem pySplit_cons (c : Char) (cs : List Char) :
    pySplit (c :: cs) =
      if pySpace c then pySplit cs
      else
        match cs, pySplit cs with
        | [], _ => [[c]]
        | d :: _, rest =>
          if pySpace d then [c] :: rest
          else
            match rest with
            | [] => [[c]]
            | w :: ws => (c :: w) :: ws := by
  simp only [pySplit]

theorem pySplit_cons_space (c : Char) (cs : List Char) (h : pySpace c = true) :
    pySplit (c :: cs) = pySplit cs := by
  rw [pySplit_cons, if_pos h]

theorem pySplit_single (c : Char) (h : pySpace c = false) : pySplit [c] = [[c]] := by
  rw [pySplit_cons]
  simp [h]

theorem pySplit_cons₂_space (c d : Char) (cs : List Char)
    (hc : pySpace c = false) (hd : pySpace d = true) :
    pySplit (c :: d :: cs) = [c] :: pySplit (d :: cs) := by
  rw [pySplit_cons]
  simp [hc, hd]

theorem pySplit_cons₂_nonspace (c d : Char) (cs w' : List Char) (ws : List (List Char))
    (hc : pySpace c = false) (hd : pySpace d = false)
    (hrec : pySplit (d :: cs) = (d :: w') :: ws) :
    pySplit (c :: d :: cs) = (c :: d :: w') :: ws := by
  rw [pySplit_cons]
  simp [hc, hd, hrec]

theorem pySplit_head (d : Char) (cs : List Char) (hd : pySpace d = false) :
    ∃ w ws, pySplit (d :: cs) = (d :: w) :: ws := by
  induction cs generalizing d with
  | nil => exact ⟨[], [], pySplit_single d hd⟩
  | cons e cs' ih =>
    by_cases he : pySpace e
    · exact ⟨[], pySplit (e :: cs'), pySplit_cons₂_space d e cs' hd he⟩
    · obtain ⟨w, ws, hw⟩ := ih e (by simpa using he)
      exact ⟨e :: w, ws, pySplit_cons₂_nonspace d e cs' w ws hd (by simpa using he) hw⟩

theorem pySplit_goodWords (l : List Char) : goodWords (pySplit l) := by
  induction l with
  | nil => intro w hw; simp [pySplit] at hw
  | cons c cs ih =>
    by_cases hc : pySpace c
    · rw [pySplit_cons_space c cs hc]; exact ih
    · have hc' : pySpace c = false := by simpa using hc
      cases cs with
      | nil =>
        intro w hw
        rw [pySplit_single c hc'] at hw
        rcases List.mem_singleton.mp hw with rfl
        refine ⟨by simp, ?_⟩
        intro x hx
        rcases List.mem_singleton.mp hx with rfl
        exact hc'
      | cons d cs' =>
        by_cases hd : pySpace d
        · intro w hw
          rw [pySplit_cons₂_space c d cs' hc' hd] at hw
          rcases List.mem_cons.mp hw with rfl | hw'
          · refine ⟨by simp, ?_⟩
            intro x hx
            rcases List.mem_singleton.mp hx with rfl
            exact hc'
          · exact ih w hw'
        · have hd' : pySpace d = false := by simpa using hd
          obtain ⟨w0, ws0, hw0⟩ := pySplit_head d cs' hd'
          intro w hw
          rw [pySplit_cons₂_nonspace c d cs' w0 ws0 hc' hd' hw0] at hw
          have hgood0 := ih (d :: w0) (by rw [hw0]; exact List.mem_cons_self _ _)
          rcases List.mem_cons.mp hw with rfl | hw'
          · refine ⟨by simp, ?_⟩
            intro x hx
            rcases List.mem_cons.mp hx with rfl | hx'
            · exact hc'
            · exact hgood0.2 x hx'
          · exact ih w (by rw [hw0]; exact List.mem_cons_of_mem _ hw')

theorem joinWords_chars (ws : List (List Char)) (h : goodWords ws) :
    ∀ c ∈ joinWords ws, pySpace c = false ∨ c = ' ' := by
  induction ws with
  | nil => simp [joinWords]
  | cons w ws ih =>
    cases ws with
    | nil =>
      intro c hc
      exact Or.inl ((h w (List.mem_singleton.mpr rfl)).2 c hc)
    | cons v ws' =>
      intro c hc
      simp only [joinWords] at hc
      rcases List.mem_append.mp hc with hcw | hcr
      · exact Or.inl ((h w (List.mem_cons_self _ _)).2 c hcw)
      · rcases List.mem_cons.mp hcr with rfl | hcr'
        · exact Or.inr rfl
        · exact ih (fun u hu => h u (List.mem_cons_of_mem _ hu)) c hcr'

theorem joinWords_ne_nil (ws : List (List Char)) (h : goodWords ws) (hne : ws ≠ []) :
    joinWords ws ≠ [] := by
  cases ws with
  | nil => exact absurd rfl hne
  | cons w ws =>
    cases ws with
    | nil => exact (h w (List.mem_singleton.mpr rfl)).1
    | cons v ws' =>
      simp only [joinWords]
      intro hcontra
      rcases List.append_eq_nil.mp hcontra with ⟨_, h2⟩
      exact List.cons_ne_nil _ _ h2

theorem joinWords_head (ws : List (List Char)) (h : goodWords ws) :
    ∀ c ∈ (joinWords ws).head?, pySpace c = false := by
  cases ws with
  | nil => simp [joinWords]
  | cons w ws =>
    have hw := h w (List.mem_cons_self _ _)
    obtain ⟨a, w', rfl⟩ := List.exists_cons_of_ne_nil hw.1
    have ha : pySpace a = false := hw.2 a (List.mem_cons_self _ _)
    cases ws with
    | nil => intro c hc; simp only [joinWords, List.head?_cons, Option.mem_def,
        Option.some.injEq] at hc; subst hc; exact ha
    | cons v ws' =>
      intro c hc
      simp only [joinWords, List.cons_append, List.head?_cons, Option.mem_def,
        Option.some.injEq] at hc
      subst hc
      exact ha

theorem joinWords_getLast (ws : List (List Char)) (h : goodWords ws) :
    ∀ c ∈ (joinWords ws).getLast?, pySpace c = false := by
  induction ws with
  | nil => simp [joinWords]
  | cons w ws ih =>
    cases ws with
    | nil =>
      intro c hc
      have hw := h w (List.mem_singleton.mpr rfl)
      simp only [joinWords] at hc
      obtain ⟨hne, heq⟩ := List.mem_getLast?_eq_getLast hc
      exact hw.2 c (heq ▸ List.getLast_mem hne)
    | cons v ws' =>
      have hvne : joinWords (v :: ws') ≠ [] :=
        joinWords_ne_nil _ (fun u hu => h u (List.mem_cons_of_mem _ hu)) (List.cons_ne_nil _ _)
      obtain ⟨r, rest', hrest⟩ := List.exists_cons_of_ne_nil hvne
      intro c hc
      simp only [joinWords] at hc
      rw [List.getLast?_append_cons, hrest, List.getLast?_cons_cons, ← hrest] at hc
      exact ih (fun u hu => h u (List.mem_cons_of_mem _ hu)) c hc

theorem hasDoubleSpace_cons_of_nonspace (c : Char) (t : List Char) (hc : c ≠ ' ') :
    hasDoubleSpace (c :: t) = hasDoubleSpace t := by
  cases t with
  | nil => simp [hasDoubleSpace]
  | cons d t' =>
    simp only [hasDoubleSpace]
    have : (c == ' ') = false := by simpa using hc
    simp [this]

theorem hasDoubleSpace_append_word (w rest : List Char) (hw : ∀ c ∈ w, c ≠ ' ') :
    hasDoubleSpace (w ++ rest) = hasDoubleSpace rest := by
  induction w with
  | nil => simp
  | cons c w' ih =>
    rw [List.cons_append,
      hasDoubleSpace_cons_of_nonspace c (w' ++ rest) (hw c (List.mem_cons_self _ _))]
    exact ih fun x hx => hw x (List.mem_cons_of_mem _ hx)

theorem nonspace_ne_space {c : Char} (h : pySpace c = false) : c ≠ ' ' := by
  intro rfl_eq
  subst rfl_eq
  simp [pySpace] at h

theorem joinWords_no_double_space (ws : List (List Char)) (h : goodWords ws) :
    hasDoubleSpace (joinWords ws) = false := by
  induction ws with
  | nil => simp [joinWords, hasDoubleSpace]
  | cons w ws ih =>
    have hw := h w (List.mem_cons_self _ _)
    have hwchars : ∀ c ∈ w, c ≠ ' ' := fun c hc => nonspace_ne_space (hw.2 c hc)
    cases ws with
    | nil =>
      simp only [joinWords]
      rw [show w = w ++ [] by simp, hasDoubleSpace_append_word w [] hwchars]
      rfl
    | cons v ws' =>
      have htail : goodWords (v :: ws') := fun u hu => h u (List.mem_cons_of_mem _ hu)
      have ihtail := ih htail
      simp only [joinWords]
      rw [hasDoubleSpace_append_word w _ hwchars]
      have hhead := joinWords_head (v :: ws') htail
      cases hrest : joinWords (v :: ws') with
      | nil => simp [hasDoubleSpace]
      | cons r rest' =>
        have hr : pySpace r = false := by
          apply hhead
          rw [hrest]
          rfl
        have h1 : (r == ' ') = false := by simpa using nonspace_ne_space hr
        have ihtail' : hasDoubleSpace (r :: rest') = false := by rw [← hrest]; exact ihtail
        simp only [hasDoubleSpace, h1, Bool.and_false, Bool.false_or]
        exact ihtail'

theorem replaceNewlines_eq_self (l : List Char) (h : ∀ c ∈ l, c ≠ '\n') :
    replaceNewlines l = l := by
  unfold replaceNewlines
  induction l with
  | nil => rfl
  | cons c cs ih =>
    simp only [List.map_cons]
    rw [if_neg (h c (List.mem_cons_self _ _)), ih fun x hx => h x (List.mem_cons_of_mem _ hx)]

theorem removeCarriageReturns_eq_self (l : List Char) (h : ∀ c ∈ l, c ≠ '\r') :
    removeCarriageReturns l = l := by
  unfold removeCarriageReturns
  rw [List.filter_eq_self]
  intro a ha
  simpa using h a ha

theorem pyStrip_eq_self (l : List Char)
    (hh : ∀ c ∈ l.head?, pySpace c = false)
    (hl : ∀ c ∈ l.getLast?, pySpace c = false) :
    pyStrip l = l := by
  unfold pyStrip
  have h1 : l.dropWhile pySpace = l := by
    cases l with
    | nil => rfl
    | cons c cs =>
      rw [List.dropWhile_cons]
      rw [if_neg (by simp [hh c rfl])]
  rw [h1]
  have h2 : l.reverse.dropWhile pySpace = l.reverse := by
    cases hrev : l.reverse with
    | nil => rfl
    | cons c cs =>
      rw [List.dropWhile_cons]
      have hc : pySpace c = false := by
        apply hl
        rw [← List.head?_reverse, hrev]
        rfl
      rw [if_neg (by simp [hc])]
  rw [h2, List.reverse_reverse]

theorem pySplit_word (w : List Char) (hne : w ≠ []) (hchars : ∀ c ∈ w, pySpace c = false) :
    pySplit w = [w] := by
  induction w with
  | nil => exact absurd rfl hne
  | cons c w' ih =>
    have hc : pySpace c = false := hchars c (List.mem_cons_self _ _)
    cases w' with
    | nil => exact pySplit_single c hc
    | cons d w'' =>
      have hd : pySpace d = false := hchars d (List.mem_cons_of_mem _ (List.mem_cons_self _ _))
      have hrec : pySplit (d :: w'') = [d :: w''] := by
        apply ih (List.cons_ne_nil _ _)
        intro x hx
        exact hchars x (List.mem_cons_of_mem _ hx)
      exact pySplit_cons₂_nonspace c d w'' w'' [] hc hd hrec

theorem pySplit_word_append_space (w l : List Char) (hne : w ≠ [])
    (hchars : ∀ c ∈ w, pySpace c = false) :
    pySplit (w ++ ' ' :: l) = w :: pySplit l := by
  induction w with
  | nil => exact absurd rfl hne
  | cons c w' ih =>
    have hc : pySpace c = false := hchars c (List.mem_cons_self _ _)
    cases w' with
    | nil =>
      rw [List.cons_append, List.nil_append,
        pySplit_cons₂_space c ' ' l hc (by simp [pySpace]),
        pySplit_cons_space ' ' l (by simp [pySpace])]
    | cons d w'' =>
      have hd : pySpace d = false := hchars d (List.mem_cons_of_mem _ (List.mem_cons_self _ _))
      have hrec : pySplit ((d :: w'') ++ ' ' :: l) = (d :: w'') :: pySplit l := by
        apply ih (List.cons_ne_nil _ _)
        intro x hx
        exact hchars x (List.mem_cons_of_mem _ hx)
      rw [List.cons_append]
      exact pySplit_cons₂_nonspace c d (w'' ++ ' ' :: l) w'' (pySplit l) hc hd
        (by simpa using hrec)

theorem pySplit_joinWords (ws : List (List Char)) (h : goodWords ws) :
    pySplit (joinWords ws) = ws := by
  induction ws with
  | nil => rfl
  | cons w ws ih =>
    have hw := h w (List.mem_cons_self _ _)
    cases ws with
    | nil => exact pySplit_word w hw.1 hw.2
    | cons v ws' =>
      have htail : goodWords (v :: ws') := fun u hu => h u (List.mem_cons_of_mem _ hu)
      simp only [joinWords]
      rw [pySplit_word_append_space w _ hw.1 hw.2, ih htail]

/-- A fixed point of the entire clean-text pipeline: `' '.join` of good
words passes through the newline replacement, carriage-return removal,
strip and re-split unchanged. -/
theorem clean_text_core_joinWords (ws : List (List Char)) (h : goodWords ws) :
    clean_text_core (joinWords ws) = joinWords ws := by
  unfold clean_text_core
  have hchars := joinWords_chars ws h
  have hnl : ∀ c ∈ joinWords ws, c ≠ '\n' := by
    intro c hc heq
    subst heq
    rcases hchars '\n' hc with h1 | h1
    · simp [pySpace] at h1
    · exact absurd h1 (by decide)
  have hcr : ∀ c ∈ joinWords ws, c ≠ '\r' := by
    intro c hc heq
    subst heq
    rcases hchars '\r' hc with h1 | h1
    · simp [pySpace] at h1
    · exact absurd h1 (by decide)
  rw [replaceNewlines_eq_self _ hnl, removeCarriageReturns_eq_self _ hcr,
    pyStrip_eq_self _ (joinWords_head ws h) (joinWords_getLast ws h),
    pySplit_joinWords ws h]

/-- C10: `clean_text` is idempotent, its output contains no newline, no
carriage return, no two consecutive spaces and no leading or trailing
whitespace, and `None` or empty input yields the empty string. -/
theorem C10_theorem (t : Option String) :
    clean_text (some (clean_text t)) = clean_text t ∧
    '\n' ∉ (clean_text t).data ∧
    '\r' ∉ (clean_text t).data ∧
    hasDoubleSpace (clean_text t).data = false ∧
    (∀ c ∈ (clean_text t).data.head?, pySpace c = false) ∧
    (∀ c ∈ (clean_text t).data.getLast?, pySpace c = false) ∧
    clean_text none = "" ∧ clean_text (some "") = "" := by
  have hempty : clean_text (some "") = "" := by simp [clean_text]
  have hkey : ∀ s : String, s ≠ "" →
      (clean_text (some s)).data = joinWords (pySplit (pyStrip
        (removeCarriageReturns (replaceNewlines s.data)))) := by
    intro s hs
    simp [clean_text, clean_text_core, hs]
  -- The canonical word list of the output, covering all cases at once.
  have hws : ∃ ws, goodWords ws ∧ (clean_text t).data = joinWords ws := by
    match t with
    | none => exact ⟨[], by intro w hw; simp at hw, rfl⟩
    | some s =>
      by_cases hs : s = ""
      · subst hs
        exact ⟨[], by intro w hw; simp at hw, by rw [hempty]; rfl⟩
      · refine ⟨pySplit (pyStrip (removeCarriageReturns (replaceNewlines s.data))),
          pySplit_goodWords _, hkey s hs⟩
  obtain ⟨ws, hgood, hdata⟩ := hws
  have hchars := joinWords_chars ws hgood
  refine ⟨?_, ?_, ?_, ?_, ?_, ?_, rfl, hempty⟩
  · -- idempotence
    by_cases hout : clean_text t = ""
    · rw [hout, hempty]
    · have : (clean_text (some (clean_text t))).data = (clean_text t).data := by
        rw [hkey _ hout]
        have : clean_text_core (clean_text t).data = (clean_text t).data := by
          rw [hdata]
          exact clean_text_core_joinWords ws hgood
        exact this
      exact congrArg String.mk (by
        have h1 := this
        simpa using h1)
  · rw [hdata]
    intro hc
    rcases hchars '\n' hc with h1 | h1
    · simp [pySpace] at h1
    · exact absurd h1 (by decide)
  · rw [hdata]
    intro hc
    rcases hchars '\r' hc with h1 | h1
    · simp [pySpace] at h1
    · exact absurd h1 (by decide)
  · rw [hdata]
    exact joinWords_no_double_space ws hgood
  · rw [hdata]
    exact joinWords_head ws hgood
  · rw [hdata]
    exact joinWords_getLast ws hgood

/-! ## Image letterboxing (`resize_and_pad_image`, lines 134-156, C5)

A PIL image is a pixel buffer with a size.  `Image.resize` returns an
image of the requested size whose content comes from the resampling
kernel (LANCZOS), abstracted here as a `resample` parameter; the pasted
canvas is built exactly as in the source: a black `Image.new`, with the
resized image pasted at the integer-centred offset. -/

/-- An RGB colour. -/
def Color := ℕ × ℕ × ℕ

instance : DecidableEq Color := by unfold Color; infer_instance

/-- A PIL image: a size and a pixel function. -/
structure PILImage where
  width : ℕ
  height : ℕ
  pixel : ℕ → ℕ → Color

/-- `resize_and_pad_image(image_pil, target_width, target_height)`:
compare aspect ratios, scale (the resampled content is produced by
`resample`, the truncating `int()` by `Nat.floor` on the non-negative
ratio), create a black canvas of the target size and paste the resized
image centred. -/
def resize_and_pad_image (resample : PILImage → ℕ → ℕ → ℕ → ℕ → Color)
    (image_pil : PILImage) (target_width target_height : ℕ) : PILImage :=
  let original_aspect : ℚ := (image_pil.width : ℚ) / (image_pil.height : ℚ)
  let target_aspect : ℚ := (target_width : ℚ) / (target_height : ℚ)
  let new_size : ℕ × ℕ :=
    if original_aspect > target_aspect then
      (target_width, ⌊(target_width : ℚ) / original_aspect⌋₊)
    else
      (⌊(target_height : ℚ) * original_aspect⌋₊, target_height)
  let new_width := new_size.1
  let new_height := new_size.2
  let paste_x := (target_width - new_width) / 2
  let paste_y := (target_height - new_height) / 2
  { width := target_width, height := target_height,
    pixel := fun x y =>
      if paste_x ≤ x ∧ x < paste_x + new_width ∧ paste_y ≤ y ∧ y < paste_y + new_height then
        resample image_pil new_width new_height (x - paste_x) (y - paste_y)
      else (0, 0, 0) }

/-- C5: for positive source and target dimensions, `resize_and_pad_image`
returns a canvas of exactly the target size; when the source aspect ratio
exceeds the target's the source is scaled to the target width with
derived height `⌊target_width · h / w⌋`, otherwise to the target height
with derived width `⌊target_height · w / h⌋`; the scaled dimensions fit
in the target, and the scaled content is pasted at the centred offset on
an otherwise black canvas. -/
theorem C5_theorem (resample : PILImage → ℕ → ℕ → ℕ → ℕ → Color)
    (img : PILImage) (tw th : ℕ)
    (hw : 0 < img.width) (hh : 0 < img.height) (htw : 0 < tw) (hth : 0 < th) :
    (resize_and_pad_image resample img tw th).width = tw ∧
    (resize_and_pad_image resample img tw th).height = th ∧
    ∃ nw nh : ℕ,
      (((img.width : ℚ) / img.height > (tw : ℚ) / th) →
        nw = tw ∧ nh = ⌊(tw : ℚ) * img.height / img.width⌋₊) ∧
      (¬((img.width : ℚ) / img.height > (tw : ℚ) / th) →
        nh = th ∧ nw = ⌊(th : ℚ) * img.width / img.height⌋₊) ∧
      nw ≤ tw ∧ nh ≤ th ∧
      ∀ x y : ℕ,
        (resize_and_pad_image resample img tw th).pixel x y =
          if (tw - nw) / 2 ≤ x ∧ x < (tw - nw) / 2 + nw ∧
             (th - nh) / 2 ≤ y ∧ y < (th - nh) / 2 + nh then
            resample img nw nh (x - (tw - nw) / 2) (y - (th - nh) / 2)
          else (0, 0, 0) := by
  have hwq : (0 : ℚ) < (img.width : ℚ) := by exact_mod_cast hw
  have hhq : (0 : ℚ) < (img.height : ℚ) := by exact_mod_cast hh
  have htwq : (0 : ℚ) < (tw : ℚ) := by exact_mod_cast htw
  have hthq : (0 : ℚ) < (th : ℚ) := by exact_mod_cast hth
  refine ⟨rfl, rfl, ?_⟩
  by_cases hcase : (img.width : ℚ) / img.height > (tw : ℚ) / th
  · refine ⟨tw, ⌊(tw : ℚ) * img.height / img.width⌋₊, fun _ => ⟨rfl, rfl⟩,
      fun hcontra => absurd hcase hcontra, le_refl tw, ?_, ?_⟩
    · -- the derived height is below the target height
      have hlt : (tw : ℚ) * img.height / img.width < th := by
        rw [div_lt_iff₀ hwq]
        have hcross := (div_lt_div_iff₀ hthq hhq).mp hcase
        have hcomm : (th : ℚ) * img.width = img.width * th := mul_comm _ _
        linarith
      have := Nat.floor_lt (by positivity) |>.mpr hlt
      omega
    · intro x y
      show (resize_and_pad_image resample img tw th).pixel x y = _
      unfold resize_and_pad_image
      simp only [if_pos hcase]
      have harg : ⌊(tw : ℚ) / ((img.width : ℚ) / img.height)⌋₊ =
          ⌊(tw : ℚ) * img.height / img.width⌋₊ := by
        rw [div_div_eq_mul_div]
      simp only [harg]
  · push_neg at hcase
    refine ⟨⌊(th : ℚ) * img.width / img.height⌋₊, th,
      fun hcontra => absurd hcontra (not_lt.mpr hcase),
      fun _ => ⟨rfl, rfl⟩, ?_, le_refl th, ?_⟩
    · -- the derived width is at most the target width
      have hle : (th : ℚ) * img.width / img.height ≤ tw := by
        rw [div_le_iff₀ hhq]
        have hcross : (img.width : ℚ) * th ≤ (tw : ℚ) * img.height :=
          (div_le_div_iff₀ hhq hthq).mp hcase
        have hcomm : (th : ℚ) * img.width = img.width * th := mul_comm _ _
        linarith
      calc ⌊(th : ℚ) * img.width / img.height⌋₊ ≤ ⌊(tw : ℚ)⌋₊ :=
            Nat.floor_le_floor hle
        _ = tw := Nat.floor_natCast tw
    · intro x y
      show (resize_and_pad_image resample img tw th).pixel x y = _
      unfold resize_and_pad_image
      simp only [if_neg (not_lt.mpr hcase)]
      have harg : ⌊(th : ℚ) * ((img.width : ℚ) / img.height)⌋₊ =
          ⌊(th : ℚ) * img.width / img.height⌋₊ := by
        rw [mul_div_assoc]
      simp only [harg]

/-- C5, witness: a 400x300 (4:3) source letterboxed into a 1280x720
(16:9) target with a constant resampler. -/
theorem C5_witness :
    (resize_and_pad_image (fun _ _ _ _ _ => (5, 5, 5)) ⟨400, 300, fun _ _ => (1, 2, 3)⟩
        1280 720).width = 1280 ∧
    (resize_and_pad_image (fun _ _ _ _ _ => (5, 5, 5)) ⟨400, 300, fun _ _ => (1, 2, 3)⟩
        1280 720).height = 720 ∧
    ∃ nw nh : ℕ,
      ((((⟨400, 300, fun _ _ => (1, 2, 3)⟩ : PILImage).width : ℚ) /
          (⟨400, 300, fun _ _ => (1, 2, 3)⟩ : PILImage).height > (1280 : ℚ) / 720) →
        nw = 1280 ∧ nh = ⌊(1280 : ℚ) * (⟨400, 300, fun _ _ => (1, 2, 3)⟩ : PILImage).height /
          (⟨400, 300, fun _ _ => (1, 2, 3)⟩ : PILImage).width⌋₊) ∧
      (¬(((⟨400, 300, fun _ _ => (1, 2, 3)⟩ : PILImage).width : ℚ) /
          (⟨400, 300, fun _ _ => (1, 2, 3)⟩ : PILImage).height > (1280 : ℚ) / 720) →
        nh = 720 ∧ nw = ⌊(720 : ℚ) * (⟨400, 300, fun _ _ => (1, 2, 3)⟩ : PILImage).width /
          (⟨400, 300, fun _ _ => (1, 2, 3)⟩ : PILImage).height⌋₊) ∧
      nw ≤ 1280 ∧ nh ≤ 720 ∧
      ∀ x y : ℕ,
        (resize_and_pad_image (fun _ _ _ _ _ => (5, 5, 5)) ⟨400, 300, fun _ _ => (1, 2, 3)⟩
            1280 720).pixel x y =
          if (1280 - nw) / 2 ≤ x ∧ x < (1280 - nw) / 2 + nw ∧
             (720 - nh) / 2 ≤ y ∧ y < (720 - nh) / 2 + nh then
            (fun (_ : PILImage) (_ _ _ _ : ℕ) => ((5, 5, 5) : Color)) ⟨400, 300, fun _ _ => (1, 2, 3)⟩
              nw nh (x - (1280 - nw) / 2) (y - (720 - nh) / 2)
          else (0, 0, 0) :=
  C5_theorem (fun _ _ _ _ _ => (5, 5, 5)) ⟨400, 300, fun _ _ => (1, 2, 3)⟩ 1280 720
    (by norm_num) (by norm_num) (by norm_num) (by norm_num)

/-! ## The caption compositor (lines 158-291, C6 and C7)

`add_text_to_image_with_background` and its bottom-anchored variant.
PIL image buffers are mutable, so the embedding is state-passing over an
explicit store of canvases: `convert` allocates a fresh buffer, and every
`ImageDraw` call writes to the buffer it was created on.  Font metrics
(`draw.textbbox`) and glyph rasterisation (`draw.text`) come from the
loaded font and are abstracted as parameters `FontMetrics`/`textRender`;
the layout arithmetic, the command sequence and the backing-rectangle
geometry are translated exactly from the source. -/

/-- An RGBA colour. -/
def ColorA := ℕ × ℕ × ℕ × ℕ

instance : DecidableEq ColorA := by unfold ColorA; infer_instance

/-- A canvas: an RGBA pixel buffer with a size. -/
structure Canvas where
  width : ℕ
  height : ℕ
  pixel : ℕ → ℕ → ColorA

/-- Font metrics: the pixel width `bbox[2]-bbox[0]` and height
`bbox[3]-bbox[1]` that `draw.textbbox((0,0), line, font)` reports for a
line of text. -/
structure FontMetrics where
  lineWidth : String → ℕ
  lineHeight : String → ℕ

/-- Greedy fill of words into lines of at most `width` characters
(`textwrap.wrap`'s core behaviour; breaking of single words longer than
`width` is not exercised by the callers modelled here). -/
def wrapGo (width : ℕ) (cur : List Char) : List (List Char) → List (List Char)
  | [] => [cur]
  | w :: ws =>
    if cur.length + 1 + w.length ≤ width then wrapGo width (cur ++ ' ' :: w) ws
    else cur :: wrapGo width w ws

/-- `textwrap.wrap(text, width)`: split into words, then greedy fill;
empty or all-whitespace text yields no lines. -/
def textwrap_wrap (text : List Char) (width : ℕ) : List (List Char) :=
  match pySplit text with
  | [] => []
  | w :: ws => wrapGo width w ws

/-- `split_text_into_lines` (source lines 109-115). -/
def split_text_into_lines (text : String) (max_width_chars : ℕ) : List String :=
  (textwrap_wrap text.data max_width_chars).map fun w => ⟨w⟩

/-- The fixed `text_padding` of both compositor variants (lines 187, 255). -/
def text_padding : ℕ := 20

/-- Per-line pixel heights (the first measuring loop). -/
def line_heights (font : FontMetrics) (lines : List String) : List ℕ :=
  lines.map font.lineHeight

/-- `total_text_height`: the sum of the line heights. -/
def total_text_height (font : FontMetrics) (lines : List String) : ℕ :=
  (line_heights font lines).sum

/-- `total_height_with_spacing = total_text_height
+ (len(lines) - 1) * (font_size * (line_spacing_factor - 1))`; note that
`len(lines) - 1` is `-1` in Python when there are no lines, hence the
signed subtraction. -/
def total_height_with_spacing (font : FontMetrics) (lines : List String)
    (font_size : ℕ) (line_spacing_factor : ℚ) : ℚ :=
  (total_text_height font lines : ℚ) +
    ((lines.length : ℚ) - 1) * ((font_size : ℚ) * (line_spacing_factor - 1))

/-- `max_line_width`: fold of `max` over the measured line widths,
starting from 0. -/
def max_line_width (font : FontMetrics) (lines : List String) : ℕ :=
  (lines.map font.lineWidth).foldl max 0

/-- The centered variant's `y_start_text = (height - total) // 2`
(floor division). -/
def centered_y_start (font : FontMetrics) (lines : List String) (H font_size : ℕ)
    (line_spacing_factor : ℚ) : ℚ :=
  ((⌊((H : ℚ) - total_height_with_spacing font lines font_size line_spacing_factor) / 2⌋ : ℤ) : ℚ)

/-- The bottom variant's `y_start_text = height - total - bottom_margin`
(no floor division in the source). -/
def bottom_y_start (font : FontMetrics) (lines : List String) (H font_size : ℕ)
    (line_spacing_factor : ℚ) (bottom_margin : ℕ) : ℚ :=
  (H : ℚ) - total_height_with_spacing font lines font_size line_spacing_factor - bottom_margin

/-- The centered variant's backing rectangle `(x1, y1, x2, y2)` after
clipping to the canvas (lines 195-203). -/
def centered_bg_rect (font : FontMetrics) (W H : ℕ) (lines : List String)
    (font_size : ℕ) (line_spacing_factor : ℚ) : ℚ × ℚ × ℚ × ℚ :=
  let y_start := centered_y_start font lines H font_size line_spacing_factor
  let mlw := max_line_width font lines
  let x1 : ℚ := max 0 (((⌊((W : ℚ) - mlw) / 2⌋ : ℤ) : ℚ) - text_padding)
  let y1 : ℚ := max 0 (y_start - text_padding)
  let x2 : ℚ := min (W : ℚ) (((⌊((W : ℚ) + mlw) / 2⌋ : ℤ) : ℚ) + text_padding)
  let y2 : ℚ := min (H : ℚ)
    (y_start + total_height_with_spacing font lines font_size line_spacing_factor + text_padding)
  (x1, y1, x2, y2)

/-- The bottom variant's backing rectangle (lines 263-271); its bottom
edge is `height - bottom_margin + text_padding`. -/
def bottom_bg_rect (font : FontMetrics) (W H : ℕ) (lines : List String)
    (font_size : ℕ) (line_spacing_factor : ℚ) (bottom_margin : ℕ) : ℚ × ℚ × ℚ × ℚ :=
  let y_start := bottom_y_start font lines H font_size line_spacing_factor bottom_margin
  let mlw := max_line_width font lines
  let x1 : ℚ := max 0 (((⌊((W : ℚ) - mlw) / 2⌋ : ℤ) : ℚ) - text_padding)
  let y1 : ℚ := max 0 (y_start - text_padding)
  let x2 : ℚ := min (W : ℚ) (((⌊((W : ℚ) + mlw) / 2⌋ : ℤ) : ℚ) + text_padding)
  let y2 : ℚ := min (H : ℚ) ((H : ℚ) - (bottom_margin : ℚ) + text_padding)
  (x1, y1, x2, y2)

/-- A single drawing call on the RGBA buffer. -/
inductive DrawCmd where
  | rect (x1 y1 x2 y2 : ℚ) (fill : ColorA)
  | text (x y : ℚ) (line : String) (fill : ColorA)

/-- Whether a drawing call rasterises glyphs. -/
def DrawCmd.isText : DrawCmd → Bool
  | .text _ _ _ _ => true
  | .rect _ _ _ _ _ => false

/-- The outline offsets: every `(x_offset, y_offset)` in
`[-outline_width, outline_width]²` except `(0, 0)`, in loop order. -/
def outline_offsets (outline_width : ℕ) : List (ℤ × ℤ) :=
  ((List.range (2 * outline_width + 1)).map fun k : ℕ => (k : ℤ) - outline_width).flatMap
    fun dx =>
      ((List.range (2 * outline_width + 1)).map fun k : ℕ => (k : ℤ) - outline_width).filterMap
        fun dy => if dx = 0 ∧ dy = 0 then none else some (dx, dy)

/-- `x_text = (width - line_width) // 2`: horizontal centring of a line. -/
def line_x (font : FontMetrics) (W : ℕ) (line : String) : ℚ :=
  ((⌊((W : ℚ) - (font.lineWidth line : ℚ)) / 2⌋ : ℤ) : ℚ)

/-- The per-line drawing calls (lines 209-222): for each line, the
outline re-draws at every non-zero offset, then the main draw, then
`current_y` advances by the line height plus the extra spacing. -/
def line_cmds (font : FontMetrics) (W : ℕ) (font_size : ℕ) (line_spacing_factor : ℚ)
    (text_color outline_color : ColorA) (outline_width : ℕ) :
    List String → ℚ → List DrawCmd
  | [], _ => []
  | line :: rest, current_y =>
    ((outline_offsets outline_width).map fun off =>
      DrawCmd.text (line_x font W line + off.1) (current_y + off.2) line outline_color)
    ++ [DrawCmd.text (line_x font W line) current_y line text_color]
    ++ line_cmds font W font_size line_spacing_factor text_color outline_color outline_width
        rest (current_y + (font.lineHeight line : ℚ) + (font_size : ℚ) * (line_spacing_factor - 1))

/-- The full drawing sequence of the centered compositor: the backing
rectangle, then the per-line text calls. -/
def centered_draw_cmds (font : FontMetrics) (W H : ℕ) (text_to_display : String)
    (font_size : ℕ) (text_color background_color : ColorA) (max_width_chars : ℕ)
    (line_spacing_factor : ℚ) (outline_color : ColorA) (outline_width : ℕ) : List DrawCmd :=
  let lines := split_text_into_lines text_to_display max_width_chars
  let r := centered_bg_rect font W H lines font_size line_spacing_factor
  DrawCmd.rect r.1 r.2.1 r.2.2.1 r.2.2.2 background_color ::
    line_cmds font W font_size line_spacing_factor text_color outline_color outline_width
      lines (centered_y_start font lines H font_size line_spacing_factor)

/-- The full drawing sequence of the bottom-anchored compositor. -/
def bottom_draw_cmds (font : FontMetrics) (W H : ℕ) (text_to_display : String)
    (font_size : ℕ) (text_color background_color : ColorA) (max_width_chars : ℕ)
    (line_spacing_factor : ℚ) (bottom_margin : ℕ) (outline_color : ColorA)
    (outline_width : ℕ) : List DrawCmd :=
  let lines := split_text_into_lines text_to_display max_width_chars
  let r := bottom_bg_rect font W H lines font_size line_spacing_factor bottom_margin
  DrawCmd.rect r.1 r.2.1 r.2.2.1 r.2.2.2 background_color ::
    line_cmds font W font_size line_spacing_factor text_color outline_color outline_width
      lines (bottom_y_start font lines H font_size line_spacing_factor bottom_margin)

/-! ### The canvas store -/

/-- The mutable PIL buffers live in a store; a reference is an index. -/
structure Store where
  bufs : List Canvas

/-- The all-black zero-size canvas, the out-of-range default. -/
def defaultCanvas : Canvas := ⟨0, 0, fun _ _ => (0, 0, 0, 0)⟩

def readBuf (s : Store) (r : ℕ) : Canvas := s.bufs.getD r defaultCanvas

def writeBuf (s : Store) (r : ℕ) (c : Canvas) : Store := ⟨s.bufs.set r c⟩

def allocBuf (s : Store) (c : Canvas) : Store × ℕ := (⟨s.bufs ++ [c]⟩, s.bufs.length)

/-- `image_pil.convert("RGBA")`: a fresh buffer with the same content. -/
def convert_rgba (c : Canvas) : Canvas := ⟨c.width, c.height, c.pixel⟩

/-- `.convert("RGB")`: a fresh buffer with the alpha channel dropped
(rendered opaque). -/
def convert_rgb (c : Canvas) : Canvas :=
  ⟨c.width, c.height, fun x y =>
    ((c.pixel x y).1, (c.pixel x y).2.1, (c.pixel x y).2.2.1, 255)⟩

/-- One `ImageDraw` call on a canvas.  `draw.rectangle` overwrites the
pixels inside the (inclusive) bounds with the fill colour; `draw.text`
rasterises glyphs with the loaded font, abstracted as `textRender`. -/
def execCmd (textRender : Canvas → ℚ → ℚ → String → ColorA → Canvas) (c : Canvas) :
    DrawCmd → Canvas
  | .rect x1 y1 x2 y2 fill =>
    ⟨c.width, c.height, fun x y =>
      if x1 ≤ (x : ℚ) ∧ (x : ℚ) ≤ x2 ∧ y1 ≤ (y : ℚ) ∧ (y : ℚ) ≤ y2 then fill
      else c.pixel x y⟩
  | .text x y line fill => textRender c x y line fill

/-- Run a drawing sequence against the buffer `rc` in the store: every
call reads the buffer, draws, and writes it back. -/
def runCmds (textRender : Canvas → ℚ → ℚ → String → ColorA → Canvas)
    (s : Store) (rc : ℕ) (cmds : List DrawCmd) : Store :=
  cmds.foldl (fun st cmd => writeBuf st rc (execCmd textRender (readBuf st rc) cmd)) s

/-- `add_text_to_image_with_background` (lines 158-224): convert the
input canvas to a fresh RGBA buffer, draw the backing rectangle and the
outlined lines on that buffer only, and return the RGB conversion. -/
def add_text_to_image_with_background (textRender : Canvas → ℚ → ℚ → String → ColorA → Canvas)
    (font : FontMetrics) (s : Store) (image_pil : ℕ) (text_to_display : String)
    (font_size : ℕ) (text_color background_color : ColorA) (max_width_chars : ℕ)
    (line_spacing_factor : ℚ) (outline_color : ColorA) (outline_width : ℕ) :
    Store × Canvas :=
  let base := readBuf s image_pil
  let alloc := allocBuf s (convert_rgba base)
  let s2 := runCmds textRender alloc.1 alloc.2
    (centered_draw_cmds font base.width base.height text_to_display font_size
      text_color background_color max_width_chars line_spacing_factor outline_color
      outline_width)
  (s2, convert_rgb (readBuf s2 alloc.2))

/-- `add_text_to_image_bottom_with_background` (lines 226-291). -/
def add_text_to_image_bottom_with_background
    (textRender : Canvas → ℚ → ℚ → String → ColorA → Canvas)
    (font : FontMetrics) (s : Store) (image_pil : ℕ) (text_to_display : String)
    (font_size : ℕ) (text_color background_color : ColorA) (max_width_chars : ℕ)
    (line_spacing_factor : ℚ) (bottom_margin : ℕ) (outline_color : ColorA)
    (outline_width : ℕ) : Store × Canvas :=
  let base := readBuf s image_pil
  let alloc := allocBuf s (convert_rgba base)
  let s2 := runCmds textRender alloc.1 alloc.2
    (bottom_draw_cmds font base.width base.height text_to_display font_size
      text_color background_color max_width_chars line_spacing_factor bottom_margin
      outline_color outline_width)
  (s2, convert_rgb (readBuf s2 alloc.2))

/-! ### Frame lemmas for the store -/

theorem readBuf_writeBuf_ne (s : Store) (r rc : ℕ) (c : Canvas) (h : r ≠ rc) :
    readBuf (writeBuf s rc c) r = readBuf s r := by
  unfold readBuf writeBuf
  simp only [List.getD, List.get?_eq_getElem?]
  rw [List.getElem?_set_ne (fun heq => h heq.symm)]

theorem readBuf_allocBuf (s : Store) (r : ℕ) (c : Canvas) (h : r < s.bufs.length) :
    readBuf (allocBuf s c).1 r = readBuf s r := by
  unfold readBuf allocBuf
  simp only [List.getD, List.get?_eq_getElem?]
  rw [List.getElem?_append, if_pos h]

theorem readBuf_runCmds_ne (textRender : Canvas → ℚ → ℚ → String → ColorA → Canvas)
    (cmds : List DrawCmd) (s : Store) (r rc : ℕ) (h : r ≠ rc) :
    readBuf (runCmds textRender s rc cmds) r = readBuf s r := by
  induction cmds generalizing s with
  | nil => rfl
  | cons cmd rest ih =>
    unfold runCmds
    rw [List.foldl_cons]
    have step := readBuf_writeBuf_ne
      (writeBuf s rc (execCmd textRender (readBuf s rc) cmd)) r rc
    calc readBuf (runCmds textRender
          (writeBuf s rc (execCmd textRender (readBuf s rc) cmd)) rc rest) r
        = readBuf (writeBuf s rc (execCmd textRender (readBuf s rc) cmd)) r := ih _
      _ = readBuf s r := readBuf_writeBuf_ne s r rc _ h

/-- C6: neither compositor variant mutates its input canvas: after
either call, the buffer the input reference points to is exactly what it
was before the call (all drawing happens on the freshly allocated RGBA
conversion). -/
theorem C6_theorem (textRender : Canvas → ℚ → ℚ → String → ColorA → Canvas)
    (font : FontMetrics) (s : Store) (image_pil : ℕ) (text_to_display : String)
    (font_size : ℕ) (text_color background_color outline_color : ColorA)
    (max_width_chars : ℕ) (line_spacing_factor : ℚ) (outline_width bottom_margin : ℕ)
    (hr : image_pil < s.bufs.length) :
    readBuf (add_text_to_image_with_background textRender font s image_pil text_to_display
        font_size text_color background_color max_width_chars line_spacing_factor
        outline_color outline_width).1 image_pil = readBuf s image_pil ∧
    readBuf (add_text_to_image_bottom_with_background textRender font s image_pil
        text_to_display font_size text_color background_color max_width_chars
        line_spacing_factor bottom_margin outline_color outline_width).1 image_pil =
      readBuf s image_pil := by
  have hne : image_pil ≠ s.bufs.length := Nat.ne_of_lt hr
  constructor
  · unfold add_text_to_image_with_background
    dsimp only
    rw [show (allocBuf s (convert_rgba (readBuf s image_pil))).2 = s.bufs.length from rfl]
    rw [readBuf_runCmds_ne _ _ _ _ _ hne]
    exact readBuf_allocBuf s image_pil _ hr
  · unfold add_text_to_image_bottom_with_background
    dsimp only
    rw [show (allocBuf s (convert_rgba (readBuf s image_pil))).2 = s.bufs.length from rfl]
    rw [readBuf_runCmds_ne _ _ _ _ _ hne]
    exact readBuf_allocBuf s image_pil _ hr

/-- C6, witness: a one-canvas store, a constant-metric font, and a
text renderer that fills the whole canvas, at the video call-site
arguments. -/
theorem C6_witness :
    readBuf (add_text_to_image_with_background
        (fun c _ _ _ fill => ⟨c.width, c.height, fun _ _ => fill⟩)
        ⟨fun _ => 10, fun _ => 12⟩ ⟨[⟨2, 2, fun _ _ => (9, 9, 9, 255)⟩]⟩ 0 "hi"
        45 (255, 255, 255, 255) (0, 0, 0, 150) 50 1 (0, 0, 0, 255) 2).1 0 =
      readBuf ⟨[⟨2, 2, fun _ _ => (9, 9, 9, 255)⟩]⟩ 0 ∧
    readBuf (add_text_to_image_bottom_with_background
        (fun c _ _ _ fill => ⟨c.width, c.height, fun _ _ => fill⟩)
        ⟨fun _ => 10, fun _ => 12⟩ ⟨[⟨2, 2, fun _ _ => (9, 9, 9, 255)⟩]⟩ 0 "hi"
        45 (255, 255, 255, 255) (0, 0, 0, 150) 50 1 20 (0, 0, 0, 255) 2).1 0 =
      readBuf ⟨[⟨2, 2, fun _ _ => (9, 9, 9, 255)⟩]⟩ 0 :=
  C6_theorem (fun c _ _ _ fill => ⟨c.width, c.height, fun _ _ => fill⟩)
    ⟨fun _ => 10, fun _ => 12⟩ ⟨[⟨2, 2, fun _ _ => (9, 9, 9, 255)⟩]⟩ 0 "hi"
    45 (255, 255, 255, 255) (0, 0, 0, 150) (0, 0, 0, 255) 50 1 2 20 (by norm_num)

/-! ### Claim C7: the empty caption -/

section EmptyCaption

attribute [local semireducible] Rat.mul Rat.inv Rat.add Rat.sub

/-- C7, counterexample: with the empty string at the video call-site
parameters (1280x720 canvas, font size 45, width 50 chars, spacing
factor 1), the backing rectangle drawn is `(620, 340, 660, 380)`: its
height is `2 * text_padding = 40` pixels, not zero. -/
theorem C7_counterexample :
    centered_bg_rect ⟨fun _ => 0, fun _ => 0⟩ 1280 720 (split_text_into_lines "" 50) 45 1 =
      (620, 340, 660, 380) ∧
    (380 : ℚ) - 340 = 2 * (text_padding : ℚ) ∧
    (380 : ℚ) - 340 ≠ 0 := by
  refine ⟨by decide, by norm_num [text_padding], by norm_num⟩

/-- C7, amended: the empty string wraps to zero lines, the drawing
sequence contains no text call (only the backing rectangle, whose
vertical extent at the video call-site parameters is the 40-pixel band
`[340, 380]` produced by the padding, not a zero-height panel), and the
computation is total, raising nothing. -/
theorem C7_theorem (font : FontMetrics) (W H font_size max_width_chars outline_width : ℕ)
    (text_color background_color outline_color : ColorA) (line_spacing_factor : ℚ) :
    split_text_into_lines "" max_width_chars = [] ∧
    (∀ cmd ∈ centered_draw_cmds font W H "" font_size text_color background_color
        max_width_chars line_spacing_factor outline_color outline_width,
      DrawCmd.isText cmd = false) ∧
    (∀ cmd ∈ bottom_draw_cmds font W H "" font_size text_color background_color
        max_width_chars line_spacing_factor 20 outline_color outline_width,
      DrawCmd.isText cmd = false) ∧
    centered_bg_rect font 1280 720 (split_text_into_lines "" 50) 45 1 =
      (620, 340, 660, 380) := by
  have hlines : ∀ w : ℕ, split_text_into_lines "" w = [] := fun w => rfl
  refine ⟨hlines max_width_chars, ?_, ?_, ?_⟩
  · intro cmd hcmd
    rw [centered_draw_cmds] at hcmd
    rw [hlines max_width_chars] at hcmd
    rcases List.mem_cons.mp hcmd with rfl | hcmd'
    · rfl
    · simp [line_cmds] at hcmd'
  · intro cmd hcmd
    rw [bottom_draw_cmds] at hcmd
    rw [hlines max_width_chars] at hcmd
    rcases List.mem_cons.mp hcmd with rfl | hcmd'
    · rfl
    · simp [line_cmds] at hcmd'
  · rw [hlines 50]
    show centered_bg_rect font 1280 720 [] 45 1 = (620, 340, 660, 380)
    unfold centered_bg_rect centered_y_start total_height_with_spacing total_text_height
      line_heights max_line_width text_padding
    norm_num

end EmptyCaption

/-! ## Temporary-file lifecycle of `generate_video_from_summary`
(lines 294-428, C4) and artifact naming (C9)

The filesystem is a finite set of paths.  Each fallible step of the
pipeline is an oracle bit; a step that fails creates no file (its own
writes are atomic at this granularity).  The `finally` block erases every
path accumulated in `temp_files`, on every exit path that reaches it. -/

/-- `tempfile.gettempdir()`, shared by every concurrent invocation. -/
def temp_dir : String := "/tmp"

def path_join (dir file : String) : String := dir ++ "/" ++ file

/-- `f"audio_{os.urandom(8).hex()}.mp3"` (line 124): the per-request
random hex is the parameter. -/
def audio_filename (r : String) : String := "audio_" ++ r ++ ".mp3"

def audio_file_path (r : String) : String := path_join temp_dir (audio_filename r)

/-- Left-pad a decimal rendering to five digits: `f"{i:05d}"`. -/
def pad5 (i : ℕ) : String := ⟨List.replicate (5 - (Nat.repr i).length) '0'⟩ ++ Nat.repr i

/-- `f"frame_{i:05d}.png"` (line 380): the frame filename depends only on
the frame index, never on the request. -/
def frame_filename (i : ℕ) : String := "frame_" ++ pad5 i ++ ".png"

def frame_file_path (i : ℕ) : String := path_join temp_dir (frame_filename i)

/-- `f"summary_video_{os.urandom(8).hex()}.mp4"` (line 596). -/
def video_output_filename (r : String) : String := "summary_video_" ++ r ++ ".mp4"

/-- The outcome oracle for one run of `generate_video_from_summary`. -/
structure VideoOracle where
  summary_ok : Bool
  image_url_ok : Bool
  tts_ok : Bool
  image_ok : Bool
  num_frames : ℕ
  frame_ok : ℕ → Bool
  ffmpeg_ok : Bool

/-- The frame loop (lines 353-383): frames are saved in order until the
first failing save; the saved paths are what `temp_files` accumulates. -/
def frames_loop (frame_ok : ℕ → Bool) : ℕ → List String × Bool
  | 0 => ([], true)
  | n + 1 =>
    match frames_loop frame_ok n with
    | (ps, false) => (ps, false)
    | (ps, true) => if frame_ok n then (ps ++ [frame_file_path n], true) else (ps, false)

/-- The `finally` block (lines 424-428): remove every recorded temporary
file that exists. -/
def cleanup_temp_files (temps : List String) (fs : Finset String) : Finset String :=
  temps.foldl (fun acc p => acc.erase p) fs

def insert_files (ps : List String) (fs : Finset String) : Finset String :=
  ps.foldl (fun acc p => insert p acc) fs

/-- The filesystem effect of `generate_video_from_summary`: given the
oracle, the request's audio randomness, the output location and the
initial filesystem, the returned relative path (or `None`) and the final
filesystem.  Every exit path after the first temporary file is created
goes through `cleanup_temp_files` (the `finally` block); the guard
failures and TTS failure exit before any file is recorded. -/
def generate_video_from_summary (o : VideoOracle) (audio_r : String)
    (output_dir output_filename : String) (fs0 : Finset String) :
    Option String × Finset String :=
  if ¬(o.summary_ok && o.image_url_ok) then (none, fs0)
  else if ¬o.tts_ok then (none, fs0)
  else
    let temps0 := [audio_file_path audio_r]
    let fs1 := insert (audio_file_path audio_r) fs0
    if ¬o.image_ok then (none, cleanup_temp_files temps0 fs1)
    else
      let frames := frames_loop o.frame_ok o.num_frames
      let temps := temps0 ++ frames.1
      let fs2 := insert_files frames.1 fs1
      if ¬frames.2 then (none, cleanup_temp_files temps fs2)
      else if o.ffmpeg_ok then
        (some (path_join "uploads" output_filename),
          cleanup_temp_files temps (insert (path_join output_dir output_filename) fs2))
      else (none, cleanup_temp_files temps fs2)

theorem mem_cleanup_temp_files (temps : List String) (fs : Finset String) (x : String) :
    x ∈ cleanup_temp_files temps fs ↔ x ∈ fs ∧ x ∉ temps := by
  induction temps generalizing fs with
  | nil => simp [cleanup_temp_files]
  | cons p ps ih =>
    unfold cleanup_temp_files
    rw [List.foldl_cons]
    have := ih (fs.erase p)
    unfold cleanup_temp_files at this
    rw [this, Finset.mem_erase, List.mem_cons]
    constructor
    · rintro ⟨⟨hne, hmem⟩, hnotin⟩
      exact ⟨hmem, fun hor => hor.elim hne hnotin⟩
    · rintro ⟨hmem, hnotin⟩
      exact ⟨⟨fun heq => hnotin (Or.inl heq), hmem⟩, fun hin => hnotin (Or.inr hin)⟩

theorem mem_insert_files (ps : List String) (fs : Finset String) (x : String) :
    x ∈ insert_files ps fs ↔ x ∈ ps ∨ x ∈ fs := by
  induction ps generalizing fs with
  | nil => simp [insert_files]
  | cons p ps ih =>
    unfold insert_files
    rw [List.foldl_cons]
    have := ih (insert p fs)
    unfold insert_files at this
    rw [this, Finset.mem_insert, List.mem_cons]
    tauto

/-- C4: whatever the outcome of every step, the filesystem after
`generate_video_from_summary` returns contains nothing new except,
possibly, the final output artifact: every temporary file the run
created (the audio file and the saved frames) has been removed. -/
theorem C4_theorem (o : VideoOracle) (audio_r output_dir output_filename : String)
    (fs0 : Finset String) :
    (generate_video_from_summary o audio_r output_dir output_filename fs0).2 ⊆
      insert (path_join output_dir output_filename) fs0 := by
  unfold generate_video_from_summary
  by_cases h1 : ¬(o.summary_ok && o.image_url_ok)
  · rw [if_pos h1]
    exact Finset.subset_insert _ _
  rw [if_neg h1]
  by_cases h2 : ¬o.tts_ok
  · rw [if_pos h2]
    exact Finset.subset_insert _ _
  rw [if_neg h2]
  dsimp only
  by_cases h3 : ¬o.image_ok
  · rw [if_pos h3]
    intro x hx
    rw [mem_cleanup_temp_files] at hx
    obtain ⟨hx1, hx2⟩ := hx
    rw [Finset.mem_insert] at hx1
    rcases hx1 with rfl | hx1
    · exact absurd (List.mem_singleton.mpr rfl) hx2
    · exact Finset.mem_insert_of_mem hx1
  rw [if_neg h3]
  have main : ∀ fsmid : Finset String,
      cleanup_temp_files ([audio_file_path audio_r] ++ (frames_loop o.frame_ok o.num_frames).1)
        fsmid ⊆ fsmid := by
    intro fsmid x hx
    rw [mem_cleanup_temp_files] at hx
    exact hx.1
  have core : ∀ x ∈ cleanup_temp_files
      ([audio_file_path audio_r] ++ (frames_loop o.frame_ok o.num_frames).1)
      (insert_files (frames_loop o.frame_ok o.num_frames).1
        (insert (audio_file_path audio_r) fs0)), x ∈ fs0 := by
    intro x hx
    rw [mem_cleanup_temp_files] at hx
    obtain ⟨hx1, hx2⟩ := hx
    rw [mem_insert_files, Finset.mem_insert] at hx1
    rcases hx1 with hframe | rfl | hfs
    · exact absurd (List.mem_append.mpr (Or.inr hframe)) hx2
    · exact absurd (List.mem_append.mpr (Or.inl (List.mem_singleton.mpr rfl))) hx2
    · exact hfs
  by_cases h4 : ¬(frames_loop o.frame_ok o.num_frames).2
  · rw [if_pos h4]
    intro x hx
    exact Finset.mem_insert_of_mem (core x hx)
  rw [if_neg h4]
  by_cases h5 : o.ffmpeg_ok
  · rw [if_pos h5]
    intro x hx
    dsimp only at hx
    rw [mem_cleanup_temp_files] at hx
    obtain ⟨hx1, hx2⟩ := hx
    rw [Finset.mem_insert] at hx1
    rcases hx1 with rfl | hx1
    · exact Finset.mem_insert_self _ _
    · refine Finset.mem_insert_of_mem (core x ?_)
      rw [mem_cleanup_temp_files]
      exact ⟨hx1, hx2⟩
  · rw [if_neg h5]
    intro x hx
    exact Finset.mem_insert_of_mem (core x hx)

/-! ### Claim C9: artifact naming across concurrent runs -/

/-- Every filesystem path one pipeline run touches for its artifacts: the
temporary audio file (randomised name), the final output file (randomised
name, in the uploads directory) and one file per rendered frame (fixed
index-based name in the shared temp directory). -/
def run_artifact_paths (audio_r video_r : String) (num_frames : ℕ) : List String :=
  audio_file_path audio_r :: path_join "uploads" (video_output_filename video_r) ::
    (List.range num_frames).map frame_file_path

theorem string_mid_injective (p₁ p₂ p₃ s r₁ r₂ : String)
    (h : p₁ ++ p₂ ++ (p₃ ++ r₁ ++ s) = p₁ ++ p₂ ++ (p₃ ++ r₂ ++ s)) : r₁ = r₂ := by
  have hdata := congrArg String.data h
  simp only [String.data_append, List.append_assoc] at hdata
  have h1 := List.append_cancel_left hdata
  have h2 := List.append_cancel_left h1
  have h3 := List.append_cancel_left h2
  have h4 := List.append_cancel_right h3
  exact String.ext h4

/-- C9, counterexample: two runs with entirely distinct randomness that
each render one frame share the path of frame 0, so their artifact path
sets are not disjoint. -/
theorem C9_counterexample :
    ("aa" : String) ≠ "bb" ∧ ("cc" : String) ≠ "dd" ∧
    frame_file_path 0 ∈ run_artifact_paths "aa" "cc" 1 ∧
    frame_file_path 0 ∈ run_artifact_paths "bb" "dd" 1 ∧
    ¬ List.Disjoint (run_artifact_paths "aa" "cc" 1) (run_artifact_paths "bb" "dd" 1) :=
  ⟨by decide, by decide, by decide, by decide,
    fun h => h (by decide : frame_file_path 0 ∈ run_artifact_paths "aa" "cc" 1)
      (by decide : frame_file_path 0 ∈ run_artifact_paths "bb" "dd" 1)⟩

/-- C9, amended: the audio file and the output file do carry
request-unique randomised names (distinct randomness gives distinct
paths), but the per-frame image files use the fixed names
`frame_%05d.png` in the shared temporary directory, so any two runs that
each render at least one frame always share a frame path. -/
theorem C9_theorem (ra₁ rv₁ ra₂ rv₂ : String) (n₁ n₂ : ℕ)
    (ha : ra₁ ≠ ra₂) (hv : rv₁ ≠ rv₂) (h₁ : 0 < n₁) (h₂ : 0 < n₂) :
    audio_file_path ra₁ ≠ audio_file_path ra₂ ∧
    path_join "uploads" (video_output_filename rv₁) ≠
      path_join "uploads" (video_output_filename rv₂) ∧
    ¬ List.Disjoint (run_artifact_paths ra₁ rv₁ n₁) (run_artifact_paths ra₂ rv₂ n₂) := by
  refine ⟨?_, ?_, ?_⟩
  · intro heq
    exact ha (string_mid_injective temp_dir "/" "audio_" ".mp3" ra₁ ra₂ heq)
  · intro heq
    exact hv (string_mid_injective "uploads" "/" "summary_video_" ".mp4" rv₁ rv₂ heq)
  · intro hdisj
    have hmem₁ : frame_file_path 0 ∈ run_artifact_paths ra₁ rv₁ n₁ := by
      unfold run_artifact_paths
      refine List.mem_cons_of_mem _ (List.mem_cons_of_mem _ ?_)
      exact List.mem_map_of_mem frame_file_path (List.mem_range.mpr h₁)
    have hmem₂ : frame_file_path 0 ∈ run_artifact_paths ra₂ rv₂ n₂ := by
      unfold run_artifact_paths
      refine List.mem_cons_of_mem _ (List.mem_cons_of_mem _ ?_)
      exact List.mem_map_of_mem frame_file_path (List.mem_range.mpr h₂)
    exact hdisj hmem₁ hmem₂

/-- C9, witness: the amended claim at two concrete one-frame runs. -/
theorem C9_witness :
    audio_file_path "aa" ≠ audio_file_path "bb" ∧
    path_join "uploads" (video_output_filename "cc") ≠
      path_join "uploads" (video_output_filename "dd") ∧
    ¬ List.Disjoint (run_artifact_paths "aa" "cc" 1) (run_artifact_paths "bb" "dd" 1) :=
  C9_theorem "aa" "cc" "bb" "dd" 1 1 (by decide) (by decide) (by decide) (by decide)

/-! ## The article fetch retry loop (`process_article`, lines 531-676, C8)

`for attempt in range(MAX_RETRIES)`: a successful fetch runs the rest of
the pipeline and breaks; a `RequestException` on attempt `< MAX_RETRIES-1`
sleeps `2 ** attempt` seconds and retries; a failure on the final attempt
records the top-level error, and the pipeline body never runs. -/

def MAX_RETRIES : ℕ := 3

/-- The observable outcome of the retry loop: how many fetch attempts
ran, the sleeps performed between them (in seconds, in order), whether
the download failure was recorded as the top-level error, and whether the
rest of the pipeline ran for this request. -/
structure RetryOutcome where
  attempts : ℕ
  sleeps : List ℕ
  error_recorded : Bool
  pipeline_ran : Bool
deriving DecidableEq, Repr

/-- One pass of the retry loop from attempt number `attempt`, with the
remaining loop iterations as fuel. -/
def retry_loop (fetch_ok : ℕ → Bool) : ℕ → ℕ → List ℕ → RetryOutcome
  | 0, attempt, sleeps => ⟨attempt, sleeps, false, false⟩
  | fuel + 1, attempt, sleeps =>
    if fetch_ok attempt then ⟨attempt + 1, sleeps, false, true⟩
    else if attempt < MAX_RETRIES - 1 then
      retry_loop fetch_ok fuel (attempt + 1) (sleeps ++ [2 ^ attempt])
    else ⟨attempt + 1, sleeps, true, false⟩

/-- The fetch phase of `process_article`: the retry loop started at
attempt 0. -/
def process_article_fetch (fetch_ok : ℕ → Bool) : RetryOutcome :=
  retry_loop fetch_ok MAX_RETRIES 0 []

/-- C8, counterexample: when every fetch attempt fails, the loop makes 3
attempts but sleeps only twice, 1 s and then 2 s; the claimed backoff
sequence 1 s, 2 s, 4 s never occurs (there is no sleep after the final
attempt). -/
theorem C8_counterexample :
    process_article_fetch (fun _ => false) =
      ⟨3, [1, 2], true, false⟩ ∧
    ([1, 2] : List ℕ) ≠ [1, 2, 4] := by
  refine ⟨by decide, by decide⟩

/-- C8, amended: the fetch is retried up to 3 attempts in total, with
exponential backoff sleeps of 1 s and then 2 s between consecutive
attempts (`2 ** attempt` after failed attempts 0 and 1, and no sleep
after the last attempt); only when all 3 attempts fail is the failure
recorded as the top-level error, with the rest of the pipeline skipped;
and whenever some attempt succeeds the pipeline runs with no error
recorded and sleeps `1, 2, ..., 2^(k-1)` for a first success at
attempt `k`. -/
theorem C8_theorem (fetch_ok : ℕ → Bool) (hfail : ∀ i < MAX_RETRIES, fetch_ok i = false) :
    process_article_fetch fetch_ok = ⟨3, [1, 2], true, false⟩ ∧
    (∀ g : ℕ → Bool, (process_article_fetch g).attempts ≤ 3) ∧
    (∀ g : ℕ → Bool, ∀ k, k < MAX_RETRIES → (∀ i < k, g i = false) → g k = true →
      process_article_fetch g = ⟨k + 1, (List.range k).map (2 ^ ·), false, true⟩) := by
  refine ⟨?_, ?_, ?_⟩
  · have h0 := hfail 0 (by norm_num [MAX_RETRIES])
    have h1 := hfail 1 (by norm_num [MAX_RETRIES])
    have h2 := hfail 2 (by norm_num [MAX_RETRIES])
    unfold process_article_fetch MAX_RETRIES
    simp [retry_loop, h0, h1, h2, MAX_RETRIES]
  · intro g
    unfold process_article_fetch MAX_RETRIES
    rcases hg0 : g 0 <;> rcases hg1 : g 1 <;> rcases hg2 : g 2 <;>
      simp [retry_loop, hg0, hg1, hg2, MAX_RETRIES]
  · intro g k hk hbefore hsucc
    unfold MAX_RETRIES at hk
    interval_cases k
    · unfold process_article_fetch MAX_RETRIES
      simp [retry_loop, hsucc]
    · have h0 := hbefore 0 (by norm_num)
      unfold process_article_fetch MAX_RETRIES
      simp [retry_loop, h0, hsucc, MAX_RETRIES, List.range_succ]
    · have h0 := hbefore 0 (by norm_num)
      have h1 := hbefore 1 (by norm_num)
      unfold process_article_fetch MAX_RETRIES
      simp [retry_loop, h0, h1, hsucc, MAX_RETRIES, List.range_succ]

/-- C8, witness: the amended claim evaluated on the oracle where every
fetch attempt fails. -/
theorem C8_witness :
    process_article_fetch (fun _ => false) = ⟨3, [1, 2], true, false⟩ ∧
    (∀ g : ℕ → Bool, (process_article_fetch g).attempts ≤ 3) ∧
    (∀ g : ℕ → Bool, ∀ k, k < MAX_RETRIES → (∀ i < k, g i = false) → g k = true →
      process_article_fetch g = ⟨k + 1, (List.range k).map (2 ^ ·), false, true⟩) :=
  C8_theorem (fun _ => false) (fun _ _ => rfl)

end NewsManiac
